import Mathlib

/-!
Verification of the product-URL web crawler (`crawler.py`).

The crawler performs a breadth-first traversal of each domain starting from
`https://<domain>`, bounded by a maximum depth and a page budget, classifying
discovered links as product URLs by pattern matching.  The HTTP fetch and the
HTML link extraction are external collaborators; they are modelled as function
parameters (`fetch : String → Option String`, `parse : String → String →
List String`).
-/

/-- `beginsWith p s = true` iff the character list `p` is an initial segment
of `s`. -/
def beginsWith : List Char → List Char → Bool
  | [], _ => true
  | _ :: _, [] => false
  | p :: ps, s :: ss => p == s && beginsWith ps ss

/-- `hasSubstrL pat s = true` iff `pat` occurs contiguously inside `s`. -/
def hasSubstrL (pat : List Char) : List Char → Bool
  | [] => pat.isEmpty
  | c :: t => beginsWith pat (c :: t) || hasSubstrL pat t

/-- `hasSubstr s pat = true` iff the string `pat` occurs as a contiguous
substring of `s`.  This embeds both Python's `re.search(pattern, url)` for the
literal product patterns and Python's `pattern in url` containment test. -/
def hasSubstr (s pat : String) : Bool :=
  hasSubstrL pat.toList s.toList

/-- The fixed pattern list `AsyncProductCrawler.PRODUCT_PATTERNS`.  Each
pattern is a regex containing only literal characters, so `re.search`
amounts to substring search. -/
def PRODUCT_PATTERNS : List String := ["/product/", "/item/", "/p/", "/catalogue/"]

/-- `AsyncProductCrawler.is_product_url`: `any(re.search(pattern, url) for
pattern in self.PRODUCT_PATTERNS)` — searches each pattern anywhere in the
full URL string. -/
def is_product_url (url : String) : Bool :=
  PRODUCT_PATTERNS.any (fun pattern => hasSubstr url pattern)

/-- Drop everything up to and including the first occurrence of
the scheme separator. -/
def dropSchemeSep : List Char → List Char
  | [] => []
  | ':' :: '/' :: '/' :: rest => rest
  | _ :: rest => dropSchemeSep rest

/-- Take the leading characters up to a query or fragment delimiter. -/
def takeUntilQuery : List Char → List Char
  | [] => []
  | '?' :: _ => []
  | '#' :: _ => []
  | c :: rest => c :: takeUntilQuery rest

/-- The path component of a URL, written from the spec's words (the spec's
classifier contract speaks of "the URL's path component"): the part after
the scheme and host, up to the first query or fragment delimiter.  This is
spec-side vocabulary used to compare the classifier's actual behaviour with
the specified one; the code itself never extracts the path. -/
def url_path (url : String) : String :=
  String.mk (takeUntilQuery ((dropSchemeSep url.toList).dropWhile (fun c => c ≠ '/')))

/-- The constructor arguments of `AsyncProductCrawler.__init__`. -/
structure CrawlConfig where
  max_depth : Nat
  max_pages : Nat
  max_concurrent_requests : Nat
  deriving DecidableEq

/-- The possible outcomes of `session.get(url, timeout=10)` as seen by
`fetch_url`: either a response with an HTTP status and a body, or a raised
exception (timeout or transport error). -/
inductive FetchOutcome where
  | response (status : Nat) (body : String)
  | raised
  deriving DecidableEq

/-- `AsyncProductCrawler.fetch_url`: returns the body when the status is
200; returns `none` on any other status and on any exception (the
`except` clause logs and falls through to `return None`). -/
def fetch_url (outcome : FetchOutcome) : Option String :=
  match outcome with
  | .response status body => if status = 200 then some body else none
  | .raised => none

/-- Observable events of one domain traversal, used to state trace
properties of the `crawl_domain` loop.  `vis` fields record the visited set
at the moment of the event. -/
inductive Event where
  /-- a task was popped from the queue; `vis` is the visited set at pop time. -/
  | dequeued (url : String) (depth : Nat) (vis : Finset String)
  /-- `fetch_url` was invoked; `visBefore` is the visited set at pop time,
  `visAt` the visited set at the moment the fetch is issued. -/
  | fetched (url : String) (depth : Nat) (visBefore visAt : Finset String)
  /-- an extracted link was examined by the for-loop over `links`. -/
  | linkSeen (link : String) (vis : Finset String) (fromUrl : String) (fromDepth : Nat)
  /-- `queue.put((link, depth + 1))` was executed. -/
  | enqueued (url : String) (depth : Nat)
  deriving DecidableEq

/-- The state of one finished (or truncated) traversal: the visited set,
the product-URL set and the trace of events. -/
structure CrawlResult where
  visited : Finset String
  product_urls : Finset String
  events : List Event
  deriving DecidableEq

/-- The body of the `for link in links` loop of `crawl_domain`: skip links
already visited, record product links, enqueue same-domain links (the
Python `domain in link` substring test), drop the rest.  Returns the
updated product set, the list of tasks appended to the queue, and the trace
of this loop. -/
def process_links (domain fromUrl : String) (depth : Nat) (vis : Finset String) :
    List String → Finset String → Finset String × List (String × Nat) × List Event
  | [], product_urls => (product_urls, [], [])
  | link :: rest, product_urls =>
    let ev := Event.linkSeen link vis fromUrl depth
    if link ∈ vis then
      let r := process_links domain fromUrl depth vis rest product_urls
      (r.1, r.2.1, ev :: r.2.2)
    else if is_product_url link then
      let r := process_links domain fromUrl depth vis rest (insert link product_urls)
      (r.1, r.2.1, ev :: r.2.2)
    else if hasSubstr link domain then
      let r := process_links domain fromUrl depth vis rest product_urls
      (r.1, (link, depth + 1) :: r.2.1, ev :: Event.enqueued link (depth + 1) :: r.2.2)
    else
      let r := process_links domain fromUrl depth vis rest product_urls
      (r.1, r.2.1, ev :: r.2.2)

/-- The `while not queue.empty() and len(visited) < self.max_pages` loop of
`crawl_domain`.  The queue is the FIFO `asyncio.Queue` (puts append at the
tail, so after processing the links of a page the queue is
`rest ++ new tasks`).  `fetch url` models `fetch_url(session, url)`
(`none` = failure), `parse html url` models `parse_links(html, url)`. -/
def crawlLoop (cfg : CrawlConfig) (domain : String) (fetch : String → Option String)
    (parse : String → String → List String) :
    List (String × Nat) → Finset String → Finset String → CrawlResult
  | [], visited, product_urls => ⟨visited, product_urls, []⟩
  | (url, depth) :: rest, visited, product_urls =>
    if hbudget : visited.card < cfg.max_pages then
      if hskip : cfg.max_depth < depth ∨ url ∈ visited then
        let r := crawlLoop cfg domain fetch parse rest visited product_urls
        ⟨r.visited, r.product_urls, Event.dequeued url depth visited :: r.events⟩
      else
        match fetch url with
        | none =>
          let r := crawlLoop cfg domain fetch parse rest (insert url visited) product_urls
          ⟨r.visited, r.product_urls,
            Event.dequeued url depth visited ::
              Event.fetched url depth visited (insert url visited) :: r.events⟩
        | some html =>
          let r := crawlLoop cfg domain fetch parse
            (rest ++ (process_links domain url depth (insert url visited) (parse html url)
              product_urls).2.1)
            (insert url visited)
            (process_links domain url depth (insert url visited) (parse html url) product_urls).1
          ⟨r.visited, r.product_urls,
            Event.dequeued url depth visited ::
              Event.fetched url depth visited (insert url visited) ::
                ((process_links domain url depth (insert url visited) (parse html url)
                  product_urls).2.2 ++ r.events)⟩
    else ⟨visited, product_urls, []⟩
termination_by queue visited _ => (cfg.max_pages - visited.card, queue.length)
decreasing_by
  · exact Prod.Lex.right _ (Nat.lt_succ_self _)
  · refine Prod.Lex.left _ _ ?_
    have hmem : url ∉ visited := fun h => hskip (Or.inr h)
    rw [Finset.card_insert_of_not_mem hmem]
    omega
  · refine Prod.Lex.left _ _ ?_
    have hmem : url ∉ visited := fun h => hskip (Or.inr h)
    rw [Finset.card_insert_of_not_mem hmem]
    omega

/-- `AsyncProductCrawler.crawl_domain`: seed the queue with
`("https://" ++ domain, 0)`, start with empty visited and product sets, and
run the traversal loop. -/
def crawl_domain (cfg : CrawlConfig) (fetch : String → Option String)
    (parse : String → String → List String) (domain : String) : CrawlResult :=
  crawlLoop cfg domain fetch parse [("https://" ++ domain, 0)] ∅ ∅

/-- Step-indexed version of the traversal loop: `none` means the fuel ran
out before the loop reached its exit condition.  Used to express that the
loop terminates (some finite fuel suffices) and to evaluate concrete runs. -/
def crawlLoopFuel (cfg : CrawlConfig) (domain : String) (fetch : String → Option String)
    (parse : String → String → List String) :
    Nat → List (String × Nat) → Finset String → Finset String → Option CrawlResult
  | 0, _, _, _ => none
  | _ + 1, [], visited, product_urls => some ⟨visited, product_urls, []⟩
  | n + 1, (url, depth) :: rest, visited, product_urls =>
    if visited.card < cfg.max_pages then
      if cfg.max_depth < depth ∨ url ∈ visited then
        (crawlLoopFuel cfg domain fetch parse n rest visited product_urls).map
          (fun r => ⟨r.visited, r.product_urls, Event.dequeued url depth visited :: r.events⟩)
      else
        match fetch url with
        | none =>
          (crawlLoopFuel cfg domain fetch parse n rest (insert url visited) product_urls).map
            (fun r => ⟨r.visited, r.product_urls,
              Event.dequeued url depth visited ::
                Event.fetched url depth visited (insert url visited) :: r.events⟩)
        | some html =>
          let p := process_links domain url depth (insert url visited) (parse html url) product_urls
          (crawlLoopFuel cfg domain fetch parse n (rest ++ p.2.1) (insert url visited) p.1).map
            (fun r => ⟨r.visited, r.product_urls,
              Event.dequeued url depth visited ::
                Event.fetched url depth visited (insert url visited) :: (p.2.2 ++ r.events)⟩)
    else some ⟨visited, product_urls, []⟩

/-- The URLs on which a fetch was attempted, in order. -/
def fetchedUrls (evs : List Event) : List String :=
  evs.filterMap fun e =>
    match e with
    | .fetched u _ _ _ => some u
    | _ => none

/-- The number of fetch attempts recorded in a trace. -/
def countFetched (evs : List Event) : Nat :=
  (fetchedUrls evs).length

/-- Scheduler state of `crawl_domains`: the counter of the
`asyncio.Semaphore` and how many domain tasks are waiting to enter
`async with semaphore`, are running `crawl_domain` inside it, or have
finished. -/
structure OrchState where
  sem : Nat
  waiting : Nat
  running : Nat
  finished : Nat
  deriving DecidableEq

/-- Initial scheduler state of `crawl_domains domains`: the semaphore is
initialized to `max_concurrent_requests` and one task per domain is
created, all waiting to acquire the semaphore. -/
def initOrch (cfg : CrawlConfig) (numDomains : Nat) : OrchState :=
  ⟨cfg.max_concurrent_requests, numDomains, 0, 0⟩

/-- Interleaving steps of `crawl_with_semaphore`: a waiting task enters the
`async with semaphore` block only when the counter is positive, decrementing
it; a running task increments the counter back when its `crawl_domain`
completes. -/
inductive OrchStep : OrchState → OrchState → Prop where
  | acquire (s : OrchState) (hw : 0 < s.waiting) (hs : 0 < s.sem) :
      OrchStep s ⟨s.sem - 1, s.waiting - 1, s.running + 1, s.finished⟩
  | release (s : OrchState) (hr : 0 < s.running) :
      OrchStep s ⟨s.sem + 1, s.waiting, s.running - 1, s.finished + 1⟩

/-- The scheduler states reachable during a run of `crawl_domains` over
`numDomains` domains. -/
inductive OrchReachable (cfg : CrawlConfig) (numDomains : Nat) : OrchState → Prop where
  | init : OrchReachable cfg numDomains (initOrch cfg numDomains)
  | step {s t : OrchState} : OrchReachable cfg numDomains s → OrchStep s t →
      OrchReachable cfg numDomains t

/-- Concrete fetcher for scenario runs: only the root of `d.com` responds. -/
def exFetch : String → Option String :=
  fun url => if url = "https://d.com" then some "rootpage" else none

/-- Concrete extractor for scenario runs: every page holds one same-domain
non-product link. -/
def exParse : String → String → List String :=
  fun _ _ => ["https://d.com/next"]

/-- Concrete fetcher for the C9 scenario: only the root of
`shop.example.com` responds. -/
def c9Fetch : String → Option String :=
  fun url => if url = "https://shop.example.com" then some "rootpage" else none

/-- Concrete extractor for the C9 scenario: the root page holds one product
link and one same-domain non-product link. -/
def c9Parse : String → String → List String :=
  fun html _ =>
    if html = "rootpage" then
      ["https://shop.example.com/product/42", "https://shop.example.com/about"]
    else []

/-- Fetcher whose every request fails (timeout, non-200 or transport
error). -/
def failFetch : String → Option String :=
  fun _ => none

/-- Extractor returning no links, for runs where it is never reached. -/
def emptyParse : String → String → List String :=
  fun _ _ => []

example : url_path "https://example.com/page?next=/product/42" = "/page" := by decide
example : is_product_url "https://example.com/page?next=/product/42" = true := by decide
example : is_product_url "https://shop.example.com/about" = false := by decide

theorem beginsWith_iff (p s : List Char) :
    beginsWith p s = true ↔ ∃ r, s = p ++ r := by
  induction p generalizing s with
  | nil => simp [beginsWith]
  | cons c cs ih =>
    cases s with
    | nil => simp [beginsWith]
    | cons d ds =>
      simp only [beginsWith, Bool.and_eq_true, beq_iff_eq, ih]
      constructor
      · rintro ⟨rfl, r, rfl⟩; exact ⟨r, rfl⟩
      · rintro ⟨r, h⟩
        injection h with h1 h2
        exact ⟨h1.symm, r, h2⟩

theorem hasSubstrL_iff (pat s : List Char) :
    hasSubstrL pat s = true ↔ ∃ l r, s = l ++ pat ++ r := by
  induction s with
  | nil =>
    simp only [hasSubstrL, List.isEmpty_iff]
    constructor
    · rintro rfl; exact ⟨[], [], rfl⟩
    · rintro ⟨l, r, h⟩
      rcases List.append_eq_nil.mp (List.append_eq_nil.mp h.symm).1 with ⟨-, h2⟩
      exact h2
  | cons c t ih =>
    simp only [hasSubstrL, Bool.or_eq_true, beginsWith_iff, ih]
    constructor
    · rintro (⟨r, h⟩ | ⟨l, r, h⟩)
      · exact ⟨[], r, by simpa using h⟩
      · exact ⟨c :: l, r, by simp [h]⟩
    · rintro ⟨l, r, h⟩
      cases l with
      | nil => exact Or.inl ⟨r, by simpa using h⟩
      | cons x xs =>
        injection h with h1 h2
        exact Or.inr ⟨xs, r, h2⟩

theorem hasSubstr_iff (s pat : String) :
    hasSubstr s pat = true ↔ ∃ l r, s.toList = l ++ pat.toList ++ r := by
  simp [hasSubstr, hasSubstrL_iff]

theorem crawlLoopFuel_sound (cfg : CrawlConfig) (domain : String)
    (fetch : String → Option String) (parse : String → String → List String) :
    ∀ (n : Nat) (queue : List (String × Nat)) (visited product_urls : Finset String)
      (r : CrawlResult),
      crawlLoopFuel cfg domain fetch parse n queue visited product_urls = some r →
      crawlLoop cfg domain fetch parse queue visited product_urls = r := by
  intro n
  induction n with
  | zero => intro q v p r h; simp [crawlLoopFuel] at h
  | succ n ih =>
    intro q v p r h
    match q with
    | [] =>
      rw [crawlLoop]
      simp only [crawlLoopFuel, Option.some_inj] at h
      exact h
    | (url, depth) :: rest =>
      rw [crawlLoop]
      simp only [crawlLoopFuel] at h
      by_cases hb : v.card < cfg.max_pages
      · rw [if_pos hb] at h
        rw [dif_pos hb]
        by_cases hs : cfg.max_depth < depth ∨ url ∈ v
        · rw [if_pos hs] at h
          rw [dif_pos hs]
          obtain ⟨r', hr', rfl⟩ := Option.map_eq_some'.mp h
          rw [ih _ _ _ _ hr']
        · rw [if_neg hs] at h
          rw [dif_neg hs]
          cases hf : fetch url with
          | none =>
            rw [hf] at h
            obtain ⟨r', hr', rfl⟩ := Option.map_eq_some'.mp h
            rw [ih _ _ _ _ hr']
          | some html =>
            rw [hf] at h
            simp only at h
            obtain ⟨r', hr', rfl⟩ := Option.map_eq_some'.mp h
            simp only
            rw [ih _ _ _ _ hr']
      · rw [if_neg hb] at h
        rw [dif_neg hb]
        exact Option.some_inj.mp h

theorem crawlLoop_reached_by_fuel (cfg : CrawlConfig) (domain : String)
    (fetch : String → Option String) (parse : String → String → List String)
    (queue : List (String × Nat)) (visited product_urls : Finset String) :
    ∃ n : Nat,
      crawlLoopFuel cfg domain fetch parse n queue visited product_urls =
        some (crawlLoop cfg domain fetch parse queue visited product_urls) := by
  induction queue, visited, product_urls using crawlLoop.induct cfg domain fetch parse with
  | case1 visited product_urls =>
    exact ⟨1, by rw [crawlLoop]; simp [crawlLoopFuel]⟩
  | case2 url depth rest visited product_urls hb hs ih =>
    obtain ⟨n, hn⟩ := ih
    refine ⟨n + 1, ?_⟩
    rw [crawlLoop]
    simp only [crawlLoopFuel, if_pos hb, if_pos hs, dif_pos hb, dif_pos hs, hn, Option.map_some']
  | case3 url depth rest visited product_urls hb hs hf ih =>
    obtain ⟨n, hn⟩ := ih
    refine ⟨n + 1, ?_⟩
    rw [crawlLoop]
    simp only [crawlLoopFuel, if_pos hb, if_neg hs, dif_pos hb, dif_neg hs, hf, hn,
      Option.map_some']
  | case4 url depth rest visited product_urls hb hs html hf ih =>
    obtain ⟨n, hn⟩ := ih
    refine ⟨n + 1, ?_⟩
    rw [crawlLoop]
    simp only [crawlLoopFuel, if_pos hb, if_neg hs, dif_pos hb, dif_neg hs, hf, hn,
      Option.map_some']
  | case5 url depth rest visited product_urls hb =>
    exact ⟨1, by rw [crawlLoop]; simp [crawlLoopFuel, if_neg hb, dif_neg hb]⟩

theorem mem_fetchedUrls (u : String) (evs : List Event) :
    u ∈ fetchedUrls evs ↔ ∃ d vB vA, Event.fetched u d vB vA ∈ evs := by
  simp only [fetchedUrls, List.mem_filterMap]
  constructor
  · rintro ⟨e, he, hu⟩
    cases e with
    | fetched u2 d vB vA =>
      simp only [Option.some_inj] at hu
      exact ⟨d, vB, vA, hu ▸ he⟩
    | dequeued u2 d v => simp at hu
    | linkSeen l v fu fd => simp at hu
    | enqueued u2 d => simp at hu
  · rintro ⟨d, vB, vA, he⟩
    exact ⟨.fetched u d vB vA, he, rfl⟩

theorem process_links_products (domain fromUrl : String) (depth : Nat) (vis : Finset String)
    (links : List String) (product_urls : Finset String) (x : String) :
    x ∈ (process_links domain fromUrl depth vis links product_urls).1 ↔
      x ∈ product_urls ∨ (x ∈ links ∧ x ∉ vis ∧ is_product_url x = true) := by
  induction links, product_urls using process_links.induct domain fromUrl depth vis with
  | case1 product_urls => simp [process_links]
  | case2 link rest product_urls hmem ih =>
    simp only [process_links, if_pos hmem, ih, List.mem_cons]
    constructor
    · rintro (h | ⟨h1, h2, h3⟩)
      · exact Or.inl h
      · exact Or.inr ⟨Or.inr h1, h2, h3⟩
    · rintro (h | ⟨h1 | h1, h2, h3⟩)
      · exact Or.inl h
      · exact absurd (h1 ▸ hmem) h2
      · exact Or.inr ⟨h1, h2, h3⟩
  | case3 link rest product_urls hmem hprod ih =>
    simp only [process_links, if_neg hmem, if_pos hprod, ih, Finset.mem_insert, List.mem_cons]
    constructor
    · rintro ((h | h) | ⟨h1, h2, h3⟩)
      · exact Or.inr ⟨Or.inl h, h ▸ hmem, h ▸ hprod⟩
      · exact Or.inl h
      · exact Or.inr ⟨Or.inr h1, h2, h3⟩
    · rintro (h | ⟨h1 | h1, h2, h3⟩)
      · exact Or.inl (Or.inr h)
      · exact Or.inl (Or.inl h1)
      · exact Or.inr ⟨h1, h2, h3⟩
  | case4 link rest product_urls hmem hprod hdom ih =>
    simp only [process_links, if_neg hmem, if_neg hprod, if_pos hdom, ih, List.mem_cons]
    constructor
    · rintro (h | ⟨h1, h2, h3⟩)
      · exact Or.inl h
      · exact Or.inr ⟨Or.inr h1, h2, h3⟩
    · rintro (h | ⟨h1 | h1, h2, h3⟩)
      · exact Or.inl h
      · exact absurd (h1 ▸ h3) (h1 ▸ hprod)
      · exact Or.inr ⟨h1, h2, h3⟩
  | case5 link rest product_urls hmem hprod hdom ih =>
    simp only [process_links, if_neg hmem, if_neg hprod, if_neg hdom, ih, List.mem_cons]
    constructor
    · rintro (h | ⟨h1, h2, h3⟩)
      · exact Or.inl h
      · exact Or.inr ⟨Or.inr h1, h2, h3⟩
    · rintro (h | ⟨h1 | h1, h2, h3⟩)
      · exact Or.inl h
      · exact absurd (h1 ▸ h3) (h1 ▸ hprod)
      · exact Or.inr ⟨h1, h2, h3⟩

theorem process_links_tasks (domain fromUrl : String) (depth : Nat) (vis : Finset String)
    (links : List String) (product_urls : Finset String) (t : String × Nat) :
    t ∈ (process_links domain fromUrl depth vis links product_urls).2.1 ↔
      ∃ l, l ∈ links ∧ t = (l, depth + 1) ∧ l ∉ vis ∧ is_product_url l = false ∧
        hasSubstr l domain = true := by
  induction links, product_urls using process_links.induct domain fromUrl depth vis with
  | case1 product_urls => simp [process_links]
  | case2 link rest product_urls hmem ih =>
    simp only [process_links, if_pos hmem, ih, List.mem_cons]
    constructor
    · rintro ⟨l, h1, h⟩; exact ⟨l, Or.inr h1, h⟩
    · rintro ⟨l, h1 | h1, h2, h3, h⟩
      · exact absurd (h1 ▸ hmem) h3
      · exact ⟨l, h1, h2, h3, h⟩
  | case3 link rest product_urls hmem hprod ih =>
    simp only [process_links, if_neg hmem, if_pos hprod, ih, List.mem_cons]
    constructor
    · rintro ⟨l, h1, h⟩; exact ⟨l, Or.inr h1, h⟩
    · rintro ⟨l, h1 | h1, h2, h3, h4, h⟩
      · rw [h1] at h4; rw [h4] at hprod; exact absurd hprod (by simp)
      · exact ⟨l, h1, h2, h3, h4, h⟩
  | case4 link rest product_urls hmem hprod hdom ih =>
    simp only [process_links, if_neg hmem, if_neg hprod, if_pos hdom, ih, List.mem_cons]
    constructor
    · rintro (h | ⟨l, h1, h⟩)
      · exact ⟨link, Or.inl rfl, h, hmem, Bool.not_eq_true _ ▸ hprod, hdom⟩
      · exact ⟨l, Or.inr h1, h⟩
    · rintro ⟨l, h1 | h1, h2, h3, h4, h⟩
      · exact Or.inl (h1 ▸ h2)
      · exact Or.inr ⟨l, h1, h2, h3, h4, h⟩
  | case5 link rest product_urls hmem hprod hdom ih =>
    simp only [process_links, if_neg hmem, if_neg hprod, if_neg hdom, ih, List.mem_cons]
    constructor
    · rintro ⟨l, h1, h⟩; exact ⟨l, Or.inr h1, h⟩
    · rintro ⟨l, h1 | h1, h2, h3, h4, h⟩
      · exact absurd (h1 ▸ h) (h1 ▸ hdom)
      · exact ⟨l, h1, h2, h3, h4, h⟩

theorem process_links_events (domain fromUrl : String) (depth : Nat) (vis : Finset String)
    (links : List String) (product_urls : Finset String) (e : Event) :
    e ∈ (process_links domain fromUrl depth vis links product_urls).2.2 ↔
      ((∃ l, l ∈ links ∧ e = .linkSeen l vis fromUrl depth) ∨
       (∃ l, l ∈ links ∧ e = .enqueued l (depth + 1) ∧ l ∉ vis ∧ is_product_url l = false ∧
         hasSubstr l domain = true)) := by
  induction links, product_urls using process_links.induct domain fromUrl depth vis with
  | case1 product_urls => simp [process_links]
  | case2 link rest product_urls hmem ih =>
    simp only [process_links, if_pos hmem, List.mem_cons, ih]
    constructor
    · rintro (rfl | (⟨l, h1, h2⟩ | ⟨l, h1, h2⟩))
      · exact Or.inl ⟨link, Or.inl rfl, rfl⟩
      · exact Or.inl ⟨l, Or.inr h1, h2⟩
      · exact Or.inr ⟨l, Or.inr h1, h2⟩
    · rintro (⟨l, h1 | h1, h2⟩ | ⟨l, h1 | h1, h2, h3, h4, h5⟩)
      · exact Or.inl (h1 ▸ h2)
      · exact Or.inr (Or.inl ⟨l, h1, h2⟩)
      · exact absurd (h1 ▸ hmem) h3
      · exact Or.inr (Or.inr ⟨l, h1, h2, h3, h4, h5⟩)
  | case3 link rest product_urls hmem hprod ih =>
    simp only [process_links, if_neg hmem, if_pos hprod, List.mem_cons, ih]
    constructor
    · rintro (rfl | (⟨l, h1, h2⟩ | ⟨l, h1, h2⟩))
      · exact Or.inl ⟨link, Or.inl rfl, rfl⟩
      · exact Or.inl ⟨l, Or.inr h1, h2⟩
      · exact Or.inr ⟨l, Or.inr h1, h2⟩
    · rintro (⟨l, h1 | h1, h2⟩ | ⟨l, h1 | h1, h2, h3, h4, h5⟩)
      · exact Or.inl (h1 ▸ h2)
      · exact Or.inr (Or.inl ⟨l, h1, h2⟩)
      · rw [h1] at h4; rw [h4] at hprod; exact absurd hprod (by simp)
      · exact Or.inr (Or.inr ⟨l, h1, h2, h3, h4, h5⟩)
  | case4 link rest product_urls hmem hprod hdom ih =>
    simp only [process_links, if_neg hmem, if_neg hprod, if_pos hdom, List.mem_cons, ih]
    constructor
    · rintro (rfl | (rfl | (⟨l, h1, h2⟩ | ⟨l, h1, h2⟩)))
      · exact Or.inl ⟨link, Or.inl rfl, rfl⟩
      · exact Or.inr ⟨link, Or.inl rfl, rfl, hmem, Bool.not_eq_true _ ▸ hprod, hdom⟩
      · exact Or.inl ⟨l, Or.inr h1, h2⟩
      · exact Or.inr ⟨l, Or.inr h1, h2⟩
    · rintro (⟨l, h1 | h1, h2⟩ | ⟨l, h1 | h1, h2, h3, h4, h5⟩)
      · exact Or.inl (h1 ▸ h2)
      · exact Or.inr (Or.inr (Or.inl ⟨l, h1, h2⟩))
      · exact Or.inr (Or.inl (h1 ▸ h2))
      · exact Or.inr (Or.inr (Or.inr ⟨l, h1, h2, h3, h4, h5⟩))
  | case5 link rest product_urls hmem hprod hdom ih =>
    simp only [process_links, if_neg hmem, if_neg hprod, if_neg hdom, List.mem_cons, ih]
    constructor
    · rintro (rfl | (⟨l, h1, h2⟩ | ⟨l, h1, h2⟩))
      · exact Or.inl ⟨link, Or.inl rfl, rfl⟩
      · exact Or.inl ⟨l, Or.inr h1, h2⟩
      · exact Or.inr ⟨l, Or.inr h1, h2⟩
    · rintro (⟨l, h1 | h1, h2⟩ | ⟨l, h1 | h1, h2, h3, h4, h5⟩)
      · exact Or.inl (h1 ▸ h2)
      · exact Or.inr (Or.inl ⟨l, h1, h2⟩)
      · exact absurd (h1 ▸ h5) (h1 ▸ hdom)
      · exact Or.inr (Or.inr ⟨l, h1, h2, h3, h4, h5⟩)

theorem process_links_no_fetched (domain fromUrl : String) (depth : Nat) (vis : Finset String)
    (links : List String) (product_urls : Finset String) :
    fetchedUrls (process_links domain fromUrl depth vis links product_urls).2.2 = [] := by
  rw [fetchedUrls, List.filterMap_eq_nil_iff]
  intro e he
  rcases (process_links_events domain fromUrl depth vis links product_urls e).mp he with
    ⟨l, -, rfl⟩ | ⟨l, -, rfl, -⟩ <;> rfl

theorem crawlLoop_nil (cfg : CrawlConfig) (domain : String) (fetch : String → Option String)
    (parse : String → String → List String) (visited product_urls : Finset String) :
    crawlLoop cfg domain fetch parse [] visited product_urls = ⟨visited, product_urls, []⟩ := by
  rw [crawlLoop]

theorem crawlLoop_stop (cfg : CrawlConfig) (domain : String) (fetch : String → Option String)
    (parse : String → String → List String) (url : String) (depth : Nat)
    (rest : List (String × Nat)) (visited product_urls : Finset String)
    (hb : ¬ visited.card < cfg.max_pages) :
    crawlLoop cfg domain fetch parse ((url, depth) :: rest) visited product_urls =
      ⟨visited, product_urls, []⟩ := by
  rw [crawlLoop, dif_neg hb]

theorem crawlLoop_skip (cfg : CrawlConfig) (domain : String) (fetch : String → Option String)
    (parse : String → String → List String) (url : String) (depth : Nat)
    (rest : List (String × Nat)) (visited product_urls : Finset String)
    (hb : visited.card < cfg.max_pages) (hs : cfg.max_depth < depth ∨ url ∈ visited) :
    crawlLoop cfg domain fetch parse ((url, depth) :: rest) visited product_urls =
      ⟨(crawlLoop cfg domain fetch parse rest visited product_urls).visited,
       (crawlLoop cfg domain fetch parse rest visited product_urls).product_urls,
       Event.dequeued url depth visited ::
         (crawlLoop cfg domain fetch parse rest visited product_urls).events⟩ := by
  rw [crawlLoop, dif_pos hb, dif_pos hs]

theorem crawlLoop_fetch_none (cfg : CrawlConfig) (domain : String)
    (fetch : String → Option String) (parse : String → String → List String) (url : String)
    (depth : Nat) (rest : List (String × Nat)) (visited product_urls : Finset String)
    (hb : visited.card < cfg.max_pages) (hs : ¬ (cfg.max_depth < depth ∨ url ∈ visited))
    (hf : fetch url = none) :
    crawlLoop cfg domain fetch parse ((url, depth) :: rest) visited product_urls =
      ⟨(crawlLoop cfg domain fetch parse rest (insert url visited) product_urls).visited,
       (crawlLoop cfg domain fetch parse rest (insert url visited) product_urls).product_urls,
       Event.dequeued url depth visited ::
         Event.fetched url depth visited (insert url visited) ::
           (crawlLoop cfg domain fetch parse rest (insert url visited) product_urls).events⟩ := by
  rw [crawlLoop, dif_pos hb, dif_neg hs, hf]

theorem crawlLoop_fetch_some (cfg : CrawlConfig) (domain : String)
    (fetch : String → Option String) (parse : String → String → List String) (url : String)
    (depth : Nat) (rest : List (String × Nat)) (visited product_urls : Finset String)
    (html : String) (hb : visited.card < cfg.max_pages)
    (hs : ¬ (cfg.max_depth < depth ∨ url ∈ visited)) (hf : fetch url = some html) :
    crawlLoop cfg domain fetch parse ((url, depth) :: rest) visited product_urls =
      ⟨(crawlLoop cfg domain fetch parse
          (rest ++ (process_links domain url depth (insert url visited) (parse html url)
            product_urls).2.1)
          (insert url visited)
          (process_links domain url depth (insert url visited) (parse html url)
            product_urls).1).visited,
       (crawlLoop cfg domain fetch parse
          (rest ++ (process_links domain url depth (insert url visited) (parse html url)
            product_urls).2.1)
          (insert url visited)
          (process_links domain url depth (insert url visited) (parse html url)
            product_urls).1).product_urls,
       Event.dequeued url depth visited ::
         Event.fetched url depth visited (insert url visited) ::
           ((process_links domain url depth (insert url visited) (parse html url)
              product_urls).2.2 ++
            (crawlLoop cfg domain fetch parse
              (rest ++ (process_links domain url depth (insert url visited) (parse html url)
                product_urls).2.1)
              (insert url visited)
              (process_links domain url depth (insert url visited) (parse html url)
                product_urls).1).events)⟩ := by
  rw [crawlLoop, dif_pos hb, dif_neg hs, hf]

/-- The visited set only grows: the initial visited set is contained in the
final one. -/
theorem crawlLoop_visited_mono (cfg : CrawlConfig) (domain : String)
    (fetch : String → Option String) (parse : String → String → List String)
    (queue : List (String × Nat)) (visited product_urls : Finset String) :
    visited ⊆ (crawlLoop cfg domain fetch parse queue visited product_urls).visited := by
  induction queue, visited, product_urls using crawlLoop.induct cfg domain fetch parse with
  | case1 visited product_urls => rw [crawlLoop_nil]
  | case2 url depth rest visited product_urls hb hs ih =>
    rw [crawlLoop_skip cfg domain fetch parse url depth rest visited product_urls hb hs]
    exact ih
  | case3 url depth rest visited product_urls hb hs hf ih =>
    rw [crawlLoop_fetch_none cfg domain fetch parse url depth rest visited product_urls hb hs hf]
    exact (Finset.subset_insert url visited).trans ih
  | case4 url depth rest visited product_urls hb hs html hf ih =>
    rw [crawlLoop_fetch_some cfg domain fetch parse url depth rest visited product_urls html
      hb hs hf]
    exact (Finset.subset_insert url visited).trans ih
  | case5 url depth rest visited product_urls hb =>
    rw [crawlLoop_stop cfg domain fetch parse url depth rest visited product_urls hb]

/-- The page budget is respected: if the visited set is within the budget,
it stays within the budget. -/
theorem crawlLoop_budget (cfg : CrawlConfig) (domain : String)
    (fetch : String → Option String) (parse : String → String → List String)
    (queue : List (String × Nat)) (visited product_urls : Finset String)
    (h : visited.card ≤ cfg.max_pages) :
    (crawlLoop cfg domain fetch parse queue visited product_urls).visited.card ≤
      cfg.max_pages := by
  induction queue, visited, product_urls using crawlLoop.induct cfg domain fetch parse with
  | case1 visited product_urls => rw [crawlLoop_nil]; exact h
  | case2 url depth rest visited product_urls hb hs ih =>
    rw [crawlLoop_skip cfg domain fetch parse url depth rest visited product_urls hb hs]
    exact ih h
  | case3 url depth rest visited product_urls hb hs hf ih =>
    rw [crawlLoop_fetch_none cfg domain fetch parse url depth rest visited product_urls hb hs hf]
    refine ih ?_
    rw [Finset.card_insert_of_not_mem (fun hc => hs (Or.inr hc))]
    omega
  | case4 url depth rest visited product_urls hb hs html hf ih =>
    rw [crawlLoop_fetch_some cfg domain fetch parse url depth rest visited product_urls html
      hb hs hf]
    refine ih ?_
    rw [Finset.card_insert_of_not_mem (fun hc => hs (Or.inr hc))]
    omega
  | case5 url depth rest visited product_urls hb =>
    rw [crawlLoop_stop cfg domain fetch parse url depth rest visited product_urls hb]
    exact h

/-- Each fetch attempt visits exactly one new URL: the final visited count
is the initial one plus the number of fetch attempts in the trace. -/
theorem crawlLoop_fetch_count (cfg : CrawlConfig) (domain : String)
    (fetch : String → Option String) (parse : String → String → List String)
    (queue : List (String × Nat)) (visited product_urls : Finset String) :
    (crawlLoop cfg domain fetch parse queue visited product_urls).visited.card =
      visited.card +
        countFetched (crawlLoop cfg domain fetch parse queue visited product_urls).events := by
  induction queue, visited, product_urls using crawlLoop.induct cfg domain fetch parse with
  | case1 visited product_urls => rw [crawlLoop_nil]; simp [countFetched, fetchedUrls]
  | case2 url depth rest visited product_urls hb hs ih =>
    rw [crawlLoop_skip cfg domain fetch parse url depth rest visited product_urls hb hs]
    simpa [countFetched, fetchedUrls] using ih
  | case3 url depth rest visited product_urls hb hs hf ih =>
    rw [crawlLoop_fetch_none cfg domain fetch parse url depth rest visited product_urls hb hs hf]
    have hcard := Finset.card_insert_of_not_mem (fun hc => hs (Or.inr hc))
    simp only [countFetched, fetchedUrls, List.filterMap_cons] at ih ⊢
    simp only [List.length_cons]
    omega
  | case4 url depth rest visited product_urls hb hs html hf ih =>
    rw [crawlLoop_fetch_some cfg domain fetch parse url depth rest visited product_urls html
      hb hs hf]
    have hcard := Finset.card_insert_of_not_mem (fun hc => hs (Or.inr hc))
    have hnofetch := process_links_no_fetched domain url depth (insert url visited)
      (parse html url) product_urls
    simp only [countFetched] at ih ⊢
    simp only [fetchedUrls, List.filterMap_cons, List.filterMap_append] at ih hnofetch ⊢
    rw [hnofetch]
    simp only [List.length_cons, List.nil_append]
    omega
  | case5 url depth rest visited product_urls hb =>
    rw [crawlLoop_stop cfg domain fetch parse url depth rest visited product_urls hb]
    simp [countFetched, fetchedUrls]

theorem process_links_not_fetched (domain fromUrl : String) (depth : Nat) (vis : Finset String)
    (links : List String) (product_urls : Finset String) (u : String) (d : Nat)
    (vB vA : Finset String) :
    Event.fetched u d vB vA ∉ (process_links domain fromUrl depth vis links product_urls).2.2 := by
  intro h
  rcases (process_links_events domain fromUrl depth vis links product_urls _).mp h with
    ⟨l, -, h2⟩ | ⟨l, -, h2, -⟩ <;> exact Event.noConfusion h2

theorem process_links_not_dequeued (domain fromUrl : String) (depth : Nat) (vis : Finset String)
    (links : List String) (product_urls : Finset String) (u : String) (d : Nat)
    (v : Finset String) :
    Event.dequeued u d v ∉ (process_links domain fromUrl depth vis links product_urls).2.2 := by
  intro h
  rcases (process_links_events domain fromUrl depth vis links product_urls _).mp h with
    ⟨l, -, h2⟩ | ⟨l, -, h2, -⟩ <;> exact Event.noConfusion h2

/-- Master invariant about fetch events: each fetch happened on a URL not
yet visited, with the URL inserted into the visited set right at the fetch,
within the depth limit and strictly within the page budget, and every
intermediate visited set is contained in the final one. -/
theorem crawlLoop_fetched_inv (cfg : CrawlConfig) (domain : String)
    (fetch : String → Option String) (parse : String → String → List String)
    (queue : List (String × Nat)) (visited product_urls : Finset String) :
    ∀ u d vB vA, Event.fetched u d vB vA ∈
        (crawlLoop cfg domain fetch parse queue visited product_urls).events →
      visited ⊆ vB ∧ u ∉ vB ∧ vA = insert u vB ∧ d ≤ cfg.max_depth ∧
        vB.card < cfg.max_pages ∧
        vA ⊆ (crawlLoop cfg domain fetch parse queue visited product_urls).visited := by
  induction queue, visited, product_urls using crawlLoop.induct cfg domain fetch parse with
  | case1 visited product_urls =>
    rw [crawlLoop_nil]; intro u d vB vA h; exact absurd h (List.not_mem_nil _)
  | case2 url depth rest visited product_urls hb hs ih =>
    rw [crawlLoop_skip cfg domain fetch parse url depth rest visited product_urls hb hs]
    intro u d vB vA h
    rcases List.mem_cons.mp h with h | h
    · exact Event.noConfusion h
    · exact ih u d vB vA h
  | case3 url depth rest visited product_urls hb hs hf ih =>
    rw [crawlLoop_fetch_none cfg domain fetch parse url depth rest visited product_urls hb hs hf]
    intro u d vB vA h
    rcases List.mem_cons.mp h with h | h
    · exact Event.noConfusion h
    rcases List.mem_cons.mp h with h | h
    · injection h with h1 h2 h3 h4
      subst h1; subst h2; subst h3; subst h4
      refine ⟨Finset.Subset.refl _, fun hc => hs (Or.inr hc), rfl, ?_, hb, ?_⟩
      · exact Nat.le_of_not_lt (fun hc => hs (Or.inl hc))
      · exact crawlLoop_visited_mono cfg domain fetch parse _ _ _
    · obtain ⟨h1, h2, h3, h4, h5, h6⟩ := ih u d vB vA h
      exact ⟨(Finset.subset_insert url visited).trans h1, h2, h3, h4, h5, h6⟩
  | case4 url depth rest visited product_urls hb hs html hf ih =>
    rw [crawlLoop_fetch_some cfg domain fetch parse url depth rest visited product_urls html
      hb hs hf]
    intro u d vB vA h
    rcases List.mem_cons.mp h with h | h
    · exact Event.noConfusion h
    rcases List.mem_cons.mp h with h | h
    · injection h with h1 h2 h3 h4
      subst h1; subst h2; subst h3; subst h4
      refine ⟨Finset.Subset.refl _, fun hc => hs (Or.inr hc), rfl, ?_, hb, ?_⟩
      · exact Nat.le_of_not_lt (fun hc => hs (Or.inl hc))
      · exact crawlLoop_visited_mono cfg domain fetch parse _ _ _
    rcases List.mem_append.mp h with h | h
    · exact absurd h (process_links_not_fetched domain url depth (insert url visited)
        (parse html url) product_urls u d vB vA)
    · obtain ⟨h1, h2, h3, h4, h5, h6⟩ := ih u d vB vA h
      exact ⟨(Finset.subset_insert url visited).trans h1, h2, h3, h4, h5, h6⟩
  | case5 url depth rest visited product_urls hb =>
    rw [crawlLoop_stop cfg domain fetch parse url depth rest visited product_urls hb]
    intro u d vB vA h
    exact absurd h (List.not_mem_nil _)

/-- No URL is fetched twice: the fetched URLs of a traversal are pairwise
distinct. -/
theorem crawlLoop_fetched_nodup (cfg : CrawlConfig) (domain : String)
    (fetch : String → Option String) (parse : String → String → List String)
    (queue : List (String × Nat)) (visited product_urls : Finset String) :
    (fetchedUrls (crawlLoop cfg domain fetch parse queue visited product_urls).events).Nodup := by
  induction queue, visited, product_urls using crawlLoop.induct cfg domain fetch parse with
  | case1 visited product_urls => rw [crawlLoop_nil]; simp [fetchedUrls]
  | case2 url depth rest visited product_urls hb hs ih =>
    rw [crawlLoop_skip cfg domain fetch parse url depth rest visited product_urls hb hs]
    simpa [fetchedUrls, List.filterMap_cons] using ih
  | case3 url depth rest visited product_urls hb hs hf ih =>
    rw [crawlLoop_fetch_none cfg domain fetch parse url depth rest visited product_urls hb hs hf]
    simp only [fetchedUrls, List.filterMap_cons] at ih ⊢
    refine List.Nodup.cons ?_ ih
    intro hmem
    obtain ⟨d, vB, vA, hev⟩ := (mem_fetchedUrls url _).mp hmem
    obtain ⟨h1, h2, -⟩ := crawlLoop_fetched_inv cfg domain fetch parse rest
      (insert url visited) product_urls url d vB vA hev
    exact h2 (h1 (Finset.mem_insert_self url visited))
  | case4 url depth rest visited product_urls hb hs html hf ih =>
    rw [crawlLoop_fetch_some cfg domain fetch parse url depth rest visited product_urls html
      hb hs hf]
    have hnf := process_links_no_fetched domain url depth (insert url visited)
      (parse html url) product_urls
    simp only [fetchedUrls, List.filterMap_cons, List.filterMap_append] at ih hnf ⊢
    rw [hnf]
    simp only [List.nil_append]
    refine List.Nodup.cons ?_ ih
    intro hmem
    obtain ⟨d, vB, vA, hev⟩ := (mem_fetchedUrls url _).mp hmem
    obtain ⟨h1, h2, -⟩ := crawlLoop_fetched_inv cfg domain fetch parse _ (insert url visited) _
      url d vB vA hev
    exact h2 (h1 (Finset.mem_insert_self url visited))
  | case5 url depth rest visited product_urls hb =>
    rw [crawlLoop_stop cfg domain fetch parse url depth rest visited product_urls hb]
    simp [fetchedUrls]

/-- A URL belongs to the final product set iff it was already there at the
start, or some link-processing step saw it while it was unvisited and it
matched a product pattern. -/
theorem crawlLoop_products_iff (cfg : CrawlConfig) (domain : String)
    (fetch : String → Option String) (parse : String → String → List String)
    (queue : List (String × Nat)) (visited product_urls : Finset String) (x : String) :
    x ∈ (crawlLoop cfg domain fetch parse queue visited product_urls).product_urls ↔
      x ∈ product_urls ∨
        ∃ vis fu fd,
          Event.linkSeen x vis fu fd ∈
            (crawlLoop cfg domain fetch parse queue visited product_urls).events ∧
          x ∉ vis ∧ is_product_url x = true := by
  induction queue, visited, product_urls using crawlLoop.induct cfg domain fetch parse with
  | case1 visited product_urls => rw [crawlLoop_nil]; simp
  | case2 url depth rest visited product_urls hb hs ih =>
    rw [crawlLoop_skip cfg domain fetch parse url depth rest visited product_urls hb hs]
    constructor
    · intro hx
      rcases ih.mp hx with h | ⟨vis, fu, fd, hev, hnvis, hp⟩
      · exact Or.inl h
      · exact Or.inr ⟨vis, fu, fd, List.mem_cons.mpr (Or.inr hev), hnvis, hp⟩
    · rintro (h | ⟨vis, fu, fd, hev, hnvis, hp⟩)
      · exact ih.mpr (Or.inl h)
      · rcases List.mem_cons.mp hev with he | hev
        · exact Event.noConfusion he
        · exact ih.mpr (Or.inr ⟨vis, fu, fd, hev, hnvis, hp⟩)
  | case3 url depth rest visited product_urls hb hs hf ih =>
    rw [crawlLoop_fetch_none cfg domain fetch parse url depth rest visited product_urls hb hs hf]
    constructor
    · intro hx
      rcases ih.mp hx with h | ⟨vis, fu, fd, hev, hnvis, hp⟩
      · exact Or.inl h
      · exact Or.inr ⟨vis, fu, fd,
          List.mem_cons.mpr (Or.inr (List.mem_cons.mpr (Or.inr hev))), hnvis, hp⟩
    · rintro (h | ⟨vis, fu, fd, hev, hnvis, hp⟩)
      · exact ih.mpr (Or.inl h)
      · rcases List.mem_cons.mp hev with he | hev
        · exact Event.noConfusion he
        rcases List.mem_cons.mp hev with he | hev
        · exact Event.noConfusion he
        · exact ih.mpr (Or.inr ⟨vis, fu, fd, hev, hnvis, hp⟩)
  | case4 url depth rest visited product_urls hb hs html hf ih =>
    rw [crawlLoop_fetch_some cfg domain fetch parse url depth rest visited product_urls html
      hb hs hf]
    constructor
    · intro hx
      rcases ih.mp hx with h | ⟨vis, fu, fd, hev, hnvis, hp⟩
      · rcases (process_links_products domain url depth (insert url visited) (parse html url)
          product_urls x).mp h with h | ⟨hl, hnv, hp⟩
        · exact Or.inl h
        · refine Or.inr ⟨insert url visited, url, depth, ?_, hnv, hp⟩
          refine List.mem_cons.mpr (Or.inr (List.mem_cons.mpr (Or.inr
            (List.mem_append.mpr (Or.inl ?_)))))
          exact (process_links_events domain url depth (insert url visited) (parse html url)
            product_urls _).mpr (Or.inl ⟨x, hl, rfl⟩)
      · exact Or.inr ⟨vis, fu, fd,
          List.mem_cons.mpr (Or.inr (List.mem_cons.mpr (Or.inr
            (List.mem_append.mpr (Or.inr hev))))), hnvis, hp⟩
    · rintro (h | ⟨vis, fu, fd, hev, hnvis, hp⟩)
      · exact ih.mpr (Or.inl ((process_links_products domain url depth (insert url visited)
          (parse html url) product_urls x).mpr (Or.inl h)))
      · rcases List.mem_cons.mp hev with he | hev
        · exact Event.noConfusion he
        rcases List.mem_cons.mp hev with he | hev
        · exact Event.noConfusion he
        rcases List.mem_append.mp hev with he | hev
        · rcases (process_links_events domain url depth (insert url visited) (parse html url)
            product_urls _).mp he with ⟨l, hl, heq⟩ | ⟨l, hl, heq, -⟩
          · injection heq with e1 e2 e3 e4
            exact ih.mpr (Or.inl ((process_links_products domain url depth (insert url visited)
              (parse html url) product_urls x).mpr
              (Or.inr ⟨e1.symm ▸ hl, e2 ▸ hnvis, hp⟩)))
          · exact Event.noConfusion heq
        · exact ih.mpr (Or.inr ⟨vis, fu, fd, hev, hnvis, hp⟩)
  | case5 url depth rest visited product_urls hb =>
    rw [crawlLoop_stop cfg domain fetch parse url depth rest visited product_urls hb]
    simp

/-- A link-seen event always originates from a successfully fetched page:
the page URL was fetched, the link occurs among the parsed links of that
page, and the visited set at link-processing time is the one at fetch time. -/
theorem crawlLoop_linkSeen_inv (cfg : CrawlConfig) (domain : String)
    (fetch : String → Option String) (parse : String → String → List String)
    (queue : List (String × Nat)) (visited product_urls : Finset String) :
    ∀ l vis fu fd,
      Event.linkSeen l vis fu fd ∈
        (crawlLoop cfg domain fetch parse queue visited product_urls).events →
      ∃ html, fetch fu = some html ∧ l ∈ parse html fu ∧
        ∃ vB, vis = insert fu vB ∧
          Event.fetched fu fd vB vis ∈
            (crawlLoop cfg domain fetch parse queue visited product_urls).events := by
  induction queue, visited, product_urls using crawlLoop.induct cfg domain fetch parse with
  | case1 visited product_urls =>
    rw [crawlLoop_nil]; intro l vis fu fd h; exact absurd h (List.not_mem_nil _)
  | case2 url depth rest visited product_urls hb hs ih =>
    rw [crawlLoop_skip cfg domain fetch parse url depth rest visited product_urls hb hs]
    intro l vis fu fd h
    rcases List.mem_cons.mp h with he | h
    · exact Event.noConfusion he
    obtain ⟨html, h1, h2, vB, h3, h4⟩ := ih l vis fu fd h
    exact ⟨html, h1, h2, vB, h3, List.mem_cons.mpr (Or.inr h4)⟩
  | case3 url depth rest visited product_urls hb hs hf ih =>
    rw [crawlLoop_fetch_none cfg domain fetch parse url depth rest visited product_urls hb hs hf]
    intro l vis fu fd h
    rcases List.mem_cons.mp h with he | h
    · exact Event.noConfusion he
    rcases List.mem_cons.mp h with he | h
    · exact Event.noConfusion he
    obtain ⟨html, h1, h2, vB, h3, h4⟩ := ih l vis fu fd h
    exact ⟨html, h1, h2, vB, h3,
      List.mem_cons.mpr (Or.inr (List.mem_cons.mpr (Or.inr h4)))⟩
  | case4 url depth rest visited product_urls hb hs html hf ih =>
    rw [crawlLoop_fetch_some cfg domain fetch parse url depth rest visited product_urls html
      hb hs hf]
    intro l vis fu fd h
    rcases List.mem_cons.mp h with he | h
    · exact Event.noConfusion he
    rcases List.mem_cons.mp h with he | h
    · exact Event.noConfusion he
    rcases List.mem_append.mp h with he | h
    · rcases (process_links_events domain url depth (insert url visited) (parse html url)
        product_urls _).mp he with ⟨l2, hl2, heq⟩ | ⟨l2, hl2, heq, -⟩
      · injection heq with e1 e2 e3 e4
        subst e1; subst e2; subst e3; subst e4
        refine ⟨html, hf, hl2, visited, rfl, ?_⟩
        exact List.mem_cons.mpr (Or.inr (List.mem_cons.mpr (Or.inl rfl)))
      · exact Event.noConfusion heq
    · obtain ⟨html2, h1, h2, vB, h3, h4⟩ := ih l vis fu fd h
      exact ⟨html2, h1, h2, vB, h3,
        List.mem_cons.mpr (Or.inr (List.mem_cons.mpr (Or.inr
          (List.mem_append.mpr (Or.inr h4)))))⟩
  | case5 url depth rest visited product_urls hb =>
    rw [crawlLoop_stop cfg domain fetch parse url depth rest visited product_urls hb]
    intro l vis fu fd h
    exact absurd h (List.not_mem_nil _)

/-- Every enqueued link is non-product and contains the domain string. -/
theorem crawlLoop_enqueued_inv (cfg : CrawlConfig) (domain : String)
    (fetch : String → Option String) (parse : String → String → List String)
    (queue : List (String × Nat)) (visited product_urls : Finset String) :
    ∀ u d,
      Event.enqueued u d ∈
        (crawlLoop cfg domain fetch parse queue visited product_urls).events →
      is_product_url u = false ∧ hasSubstr u domain = true := by
  induction queue, visited, product_urls using crawlLoop.induct cfg domain fetch parse with
  | case1 visited product_urls =>
    rw [crawlLoop_nil]; intro u d h; exact absurd h (List.not_mem_nil _)
  | case2 url depth rest visited product_urls hb hs ih =>
    rw [crawlLoop_skip cfg domain fetch parse url depth rest visited product_urls hb hs]
    intro u d h
    rcases List.mem_cons.mp h with he | h
    · exact Event.noConfusion he
    · exact ih u d h
  | case3 url depth rest visited product_urls hb hs hf ih =>
    rw [crawlLoop_fetch_none cfg domain fetch parse url depth rest visited product_urls hb hs hf]
    intro u d h
    rcases List.mem_cons.mp h with he | h
    · exact Event.noConfusion he
    rcases List.mem_cons.mp h with he | h
    · exact Event.noConfusion he
    · exact ih u d h
  | case4 url depth rest visited product_urls hb hs html hf ih =>
    rw [crawlLoop_fetch_some cfg domain fetch parse url depth rest visited product_urls html
      hb hs hf]
    intro u d h
    rcases List.mem_cons.mp h with he | h
    · exact Event.noConfusion he
    rcases List.mem_cons.mp h with he | h
    · exact Event.noConfusion he
    rcases List.mem_append.mp h with he | h
    · rcases (process_links_events domain url depth (insert url visited) (parse html url)
        product_urls _).mp he with ⟨l, hl, heq⟩ | ⟨l, hl, heq, hnv, hp, hd⟩
      · exact Event.noConfusion heq
      · injection heq with e1 e2
        exact ⟨e1 ▸ hp, e1 ▸ hd⟩
    · exact ih u d h
  | case5 url depth rest visited product_urls hb =>
    rw [crawlLoop_stop cfg domain fetch parse url depth rest visited product_urls hb]
    intro u d h
    exact absurd h (List.not_mem_nil _)

/-- Semaphore invariant: the counter plus the number of tasks inside the
`async with` block is constant, equal to `max_concurrent_requests`. -/
theorem orch_sem_invariant (cfg : CrawlConfig) (numDomains : Nat) (s : OrchState)
    (h : OrchReachable cfg numDomains s) :
    s.sem + s.running = cfg.max_concurrent_requests := by
  induction h with
  | init => simp [initOrch]
  | step hr hstep ih =>
    cases hstep with
    | acquire hw hs => simp only at ih ⊢; omega
    | release hrun => simp only at ih ⊢; omega

/-- Evaluation of the `d.com` scenario run. -/
theorem exRun_eval :
    crawl_domain ⟨0, 10, 3⟩ exFetch exParse "d.com" =
      ⟨{"https://d.com"}, ∅,
        [.dequeued "https://d.com" 0 ∅,
         .fetched "https://d.com" 0 ∅ {"https://d.com"},
         .linkSeen "https://d.com/next" {"https://d.com"} "https://d.com" 0,
         .enqueued "https://d.com/next" 1,
         .dequeued "https://d.com/next" 1 {"https://d.com"}]⟩ :=
  crawlLoopFuel_sound ⟨0, 10, 3⟩ "d.com" exFetch exParse 4 _ ∅ ∅ _ (by decide)

/-- C1: for every domain crawl with a positive page budget and any fetcher
and link-extractor behaviour, the visited set never exceeds `max_pages` —
at completion, and at every fetch point along the traversal — it only
grows (each fetch-time visited set extends the pop-time one and is
contained in the final one), and at most `max_pages` fetch attempts are
made. -/
theorem claim_C1_budget (cfg : CrawlConfig) (fetch : String → Option String)
    (parse : String → String → List String) (domain : String)
    (hmp : 0 < cfg.max_pages) :
    (crawl_domain cfg fetch parse domain).visited.card ≤ cfg.max_pages ∧
    countFetched (crawl_domain cfg fetch parse domain).events ≤ cfg.max_pages ∧
    ∀ u d vB vA,
      Event.fetched u d vB vA ∈ (crawl_domain cfg fetch parse domain).events →
        vB ⊆ vA ∧ vA ⊆ (crawl_domain cfg fetch parse domain).visited ∧
          vA.card ≤ cfg.max_pages := by
  unfold crawl_domain
  have hbud := crawlLoop_budget cfg domain fetch parse [("https://" ++ domain, 0)] ∅ ∅
    (by simp)
  have hcount := crawlLoop_fetch_count cfg domain fetch parse [("https://" ++ domain, 0)] ∅ ∅
  refine ⟨hbud, by omega, ?_⟩
  intro u d vB vA hev
  obtain ⟨-, h2, h3, -, h5, h6⟩ := crawlLoop_fetched_inv cfg domain fetch parse
    [("https://" ++ domain, 0)] ∅ ∅ u d vB vA hev
  refine ⟨h3 ▸ Finset.subset_insert u vB, h6, ?_⟩
  rw [h3, Finset.card_insert_of_not_mem h2]
  omega

/-- Witness for C1 at a concrete configuration and scenario. -/
theorem claim_C1_budget_witness :
    0 < (3 : Nat) ∧
    ((crawl_domain ⟨0, 3, 1⟩ exFetch exParse "d.com").visited.card ≤ 3 ∧
     countFetched (crawl_domain ⟨0, 3, 1⟩ exFetch exParse "d.com").events ≤ 3 ∧
     ∀ u d vB vA,
       Event.fetched u d vB vA ∈ (crawl_domain ⟨0, 3, 1⟩ exFetch exParse "d.com").events →
         vB ⊆ vA ∧ vA ⊆ (crawl_domain ⟨0, 3, 1⟩ exFetch exParse "d.com").visited ∧
           vA.card ≤ 3) :=
  ⟨by decide, claim_C1_budget ⟨0, 3, 1⟩ exFetch exParse "d.com" (by decide)⟩

/-- C2: within one domain's traversal no URL is fetched twice: every fetch
is issued on a URL that was absent from the visited set at the start of its
iteration, the URL is added to the visited set before the fetch is issued,
and the list of fetched URLs has no duplicates. -/
theorem claim_C2_no_double_fetch (cfg : CrawlConfig) (fetch : String → Option String)
    (parse : String → String → List String) (domain : String) :
    (∀ u d vB vA,
      Event.fetched u d vB vA ∈ (crawl_domain cfg fetch parse domain).events →
        u ∉ vB ∧ vA = insert u vB) ∧
    (fetchedUrls (crawl_domain cfg fetch parse domain).events).Nodup := by
  unfold crawl_domain
  refine ⟨fun u d vB vA hev => ?_,
    crawlLoop_fetched_nodup cfg domain fetch parse [("https://" ++ domain, 0)] ∅ ∅⟩
  obtain ⟨-, h2, h3, -⟩ := crawlLoop_fetched_inv cfg domain fetch parse
    [("https://" ++ domain, 0)] ∅ ∅ u d vB vA hev
  exact ⟨h2, h3⟩

/-- C3 counterexample: in the `d.com` scenario (maxDepth 0, root linking to
one same-domain page) a task of depth 1 is dequeued even though
1 > maxDepth, so not every dequeued task satisfies the claimed
invariant. -/
theorem claim_C3_counterexample :
    ¬ (∀ u d vis,
        Event.dequeued u d vis ∈
          (crawl_domain ⟨0, 10, 3⟩ exFetch exParse "d.com").events →
        d ≤ (0 : Nat) ∧ u ∉ vis) := by
  intro h
  have hev : Event.dequeued "https://d.com/next" 1 {"https://d.com"} ∈
      (crawl_domain ⟨0, 10, 3⟩ exFetch exParse "d.com").events := by
    rw [exRun_eval]; decide
  exact absurd (h "https://d.com/next" 1 {"https://d.com"} hev).1 (by decide)

/-- C3 (amended): every dequeued task that passes the post-pop guard and is
actually fetched satisfies `depth ≤ maxDepth` and its URL was not
previously visited; dequeued tasks violating either condition are
discarded without a fetch (but such tasks can be dequeued). -/
theorem claim_C3_guard (cfg : CrawlConfig) (fetch : String → Option String)
    (parse : String → String → List String) (domain : String) :
    ∀ u d vB vA,
      Event.fetched u d vB vA ∈ (crawl_domain cfg fetch parse domain).events →
        d ≤ cfg.max_depth ∧ u ∉ vB := by
  unfold crawl_domain
  intro u d vB vA hev
  obtain ⟨-, h2, -, h4, -⟩ := crawlLoop_fetched_inv cfg domain fetch parse
    [("https://" ++ domain, 0)] ∅ ∅ u d vB vA hev
  exact ⟨h4, h2⟩

/-- Witness for the amended C3 at the concrete `d.com` scenario. -/
theorem claim_C3_guard_witness :
    Event.fetched "https://d.com" 0 ∅ {"https://d.com"} ∈
      (crawl_domain ⟨0, 10, 3⟩ exFetch exParse "d.com").events ∧
    (0 ≤ (0 : Nat) ∧ "https://d.com" ∉ (∅ : Finset String)) := by
  have hev : Event.fetched "https://d.com" 0 ∅ {"https://d.com"} ∈
      (crawl_domain ⟨0, 10, 3⟩ exFetch exParse "d.com").events := by
    rw [exRun_eval]; decide
  exact ⟨hev, claim_C3_guard ⟨0, 10, 3⟩ exFetch exParse "d.com"
    "https://d.com" 0 ∅ {"https://d.com"} hev⟩

/-- C4 counterexample: `is_product_url` returns true on a URL whose path
component (`/page`) matches no product pattern — the pattern occurs only in
the query string — so matching is not restricted to the path component. -/
theorem claim_C4_counterexample :
    is_product_url "https://example.com/page?next=/product/42" = true ∧
    url_path "https://example.com/page?next=/product/42" = "/page" ∧
    PRODUCT_PATTERNS.all
      (fun pattern =>
        !(hasSubstr (url_path "https://example.com/page?next=/product/42") pattern)) =
      true := by
  decide

/-- C4 (amended): `is_product_url url` returns true iff at least one of the
fixed patterns `/product/`, `/item/`, `/p/`, `/catalogue/` occurs as a
contiguous substring anywhere in the full URL string — not only in its path
component; a match in the query string also makes it return true. -/
theorem claim_C4_full_string_match (url : String) :
    is_product_url url = true ↔
      ∃ pattern, pattern ∈ PRODUCT_PATTERNS ∧
        ∃ l r, url.toList = l ++ pattern.toList ++ r := by
  simp only [is_product_url, List.any_eq_true, hasSubstr_iff]

/-- C5: a URL is in the final product set iff some link-processing step saw
it while it was not yet visited and it matched a product pattern; every
link-processing step comes from a successfully fetched page of the crawl.
The condition never mentions the domain string: classification is checked
before the same-domain filter, so out-of-domain product links are
recorded too. -/
theorem claim_C5_product_set (cfg : CrawlConfig) (fetch : String → Option String)
    (parse : String → String → List String) (domain : String) :
    (∀ x, x ∈ (crawl_domain cfg fetch parse domain).product_urls ↔
      ∃ vis fu fd,
        Event.linkSeen x vis fu fd ∈ (crawl_domain cfg fetch parse domain).events ∧
        x ∉ vis ∧ is_product_url x = true) ∧
    (∀ x vis fu fd,
      Event.linkSeen x vis fu fd ∈ (crawl_domain cfg fetch parse domain).events →
        ∃ html, fetch fu = some html ∧ x ∈ parse html fu ∧
          ∃ vB, vis = insert fu vB ∧
            Event.fetched fu fd vB vis ∈ (crawl_domain cfg fetch parse domain).events) := by
  unfold crawl_domain
  constructor
  · intro x
    have h := crawlLoop_products_iff cfg domain fetch parse [("https://" ++ domain, 0)] ∅ ∅ x
    simpa using h
  · exact crawlLoop_linkSeen_inv cfg domain fetch parse [("https://" ++ domain, 0)] ∅ ∅

/-- C6: a product-classified link is never enqueued, a link not containing
the domain string is never enqueued, and being recorded in the product set
and being enqueued are mutually exclusive. -/
theorem claim_C6_enqueue_exclusion (cfg : CrawlConfig) (fetch : String → Option String)
    (parse : String → String → List String) (domain : String) :
    (∀ u d,
      Event.enqueued u d ∈ (crawl_domain cfg fetch parse domain).events →
        is_product_url u = false ∧ hasSubstr u domain = true) ∧
    (∀ u, u ∈ (crawl_domain cfg fetch parse domain).product_urls →
      ∀ d, Event.enqueued u d ∉ (crawl_domain cfg fetch parse domain).events) := by
  unfold crawl_domain
  have henq := crawlLoop_enqueued_inv cfg domain fetch parse [("https://" ++ domain, 0)] ∅ ∅
  refine ⟨henq, ?_⟩
  intro u hu d hev
  rcases (crawlLoop_products_iff cfg domain fetch parse [("https://" ++ domain, 0)] ∅ ∅
    u).mp hu with h | ⟨vis, fu, fd, -, -, hp⟩
  · exact absurd h (Finset.not_mem_empty u)
  · exact absurd hp (by simp [(henq u d hev).1])

/-- C7: for every configuration and every fetcher/link-extractor behaviour
(each page yields a finite link list), the traversal loop terminates: some
finite fuel makes the step-indexed loop reach its exit condition and return
exactly the traversal's result. -/
theorem claim_C7_termination (cfg : CrawlConfig) (fetch : String → Option String)
    (parse : String → String → List String) (domain : String) :
    ∃ n : Nat,
      crawlLoopFuel cfg domain fetch parse n [("https://" ++ domain, 0)] ∅ ∅ =
        some (crawl_domain cfg fetch parse domain) :=
  crawlLoop_reached_by_fuel cfg domain fetch parse [("https://" ++ domain, 0)] ∅ ∅

/-- C8: `fetch_url` returns `None` on exceptions and on any non-200 status
(and the body only on status 200); a failed fetch makes the crawl loop
treat the page as having zero outbound links and continue with the rest of
the queue; if the fetch of the root fails, the final product set is empty
and the visited set is exactly the root. -/
theorem claim_C8_fetch_failure :
    (fetch_url .raised = none) ∧
    (∀ status body, status ≠ 200 → fetch_url (.response status body) = none) ∧
    (∀ body, fetch_url (.response 200 body) = some body) ∧
    (∀ (cfg : CrawlConfig) (domain : String) (fetch : String → Option String)
       (parse : String → String → List String) (url : String) (depth : Nat)
       (rest : List (String × Nat)) (visited product_urls : Finset String),
      visited.card < cfg.max_pages → ¬ (cfg.max_depth < depth ∨ url ∈ visited) →
      fetch url = none →
        crawlLoop cfg domain fetch parse ((url, depth) :: rest) visited product_urls =
          ⟨(crawlLoop cfg domain fetch parse rest (insert url visited) product_urls).visited,
           (crawlLoop cfg domain fetch parse rest (insert url visited) product_urls).product_urls,
           Event.dequeued url depth visited ::
             Event.fetched url depth visited (insert url visited) ::
               (crawlLoop cfg domain fetch parse rest (insert url visited)
                 product_urls).events⟩) ∧
    (∀ (cfg : CrawlConfig) (fetch : String → Option String)
       (parse : String → String → List String) (domain : String),
      0 < cfg.max_pages → fetch ("https://" ++ domain) = none →
        (crawl_domain cfg fetch parse domain).visited = {"https://" ++ domain} ∧
        (crawl_domain cfg fetch parse domain).product_urls = ∅) := by
  refine ⟨rfl, ?_, fun body => rfl, ?_, ?_⟩
  · intro status body hne
    simp [fetch_url, hne]
  · intro cfg domain fetch parse url depth rest visited product_urls hb hs hf
    exact crawlLoop_fetch_none cfg domain fetch parse url depth rest visited product_urls
      hb hs hf
  · intro cfg fetch parse domain hmp hf
    unfold crawl_domain
    have hb : (∅ : Finset String).card < cfg.max_pages := by simpa using hmp
    have hs : ¬ (cfg.max_depth < 0 ∨ ("https://" ++ domain) ∈ (∅ : Finset String)) := by
      simp
    rw [crawlLoop_fetch_none cfg domain fetch parse ("https://" ++ domain) 0 [] ∅ ∅ hb hs hf,
      crawlLoop_nil]
    simp

/-- Witness for C8 at the configuration of `main()` with an all-failing
fetcher. -/
theorem claim_C8_fetch_failure_witness :
    (0 < (50 : Nat) ∧ failFetch ("https://" ++ "books.toscrape.com") = none) ∧
    (crawl_domain ⟨2, 50, 5⟩ failFetch emptyParse "books.toscrape.com").visited =
      {"https://books.toscrape.com"} ∧
    (crawl_domain ⟨2, 50, 5⟩ failFetch emptyParse "books.toscrape.com").product_urls = ∅ := by
  refine ⟨⟨by decide, rfl⟩, ?_⟩
  exact claim_C8_fetch_failure.2.2.2.2 ⟨2, 50, 5⟩ failFetch emptyParse "books.toscrape.com"
    (by decide) rfl

/-- Evaluation of the C9 scenario run. -/
theorem c9Run_eval :
    crawl_domain ⟨0, 10, 3⟩ c9Fetch c9Parse "shop.example.com" =
      ⟨{"https://shop.example.com"}, {"https://shop.example.com/product/42"},
        [.dequeued "https://shop.example.com" 0 ∅,
         .fetched "https://shop.example.com" 0 ∅ {"https://shop.example.com"},
         .linkSeen "https://shop.example.com/product/42" {"https://shop.example.com"}
           "https://shop.example.com" 0,
         .linkSeen "https://shop.example.com/about" {"https://shop.example.com"}
           "https://shop.example.com" 0,
         .enqueued "https://shop.example.com/about" 1,
         .dequeued "https://shop.example.com/about" 1 {"https://shop.example.com"}]⟩ :=
  crawlLoopFuel_sound ⟨0, 10, 3⟩ "shop.example.com" c9Fetch c9Parse 4 _ ∅ ∅ _ (by decide)

/-- C9: for a crawl with maxDepth = 0 whose root page is fetched
successfully and contains exactly two links — a product link `p` and a
same-domain non-product link `a`, both distinct from the root — the
traversal ends with product set `{p}` and visited set `{root}`, and the
root is the only URL ever fetched (`a` is enqueued at depth 1 but
discarded). -/
theorem claim_C9_depth_zero_scenario (cfg : CrawlConfig) (fetch : String → Option String)
    (parse : String → String → List String) (domain html p a : String)
    (hd : cfg.max_depth = 0) (hmp : 0 < cfg.max_pages)
    (hf : fetch ("https://" ++ domain) = some html)
    (hl : parse html ("https://" ++ domain) = [p, a])
    (hpp : is_product_url p = true) (hpa : is_product_url a = false)
    (hda : hasSubstr a domain = true)
    (hpne : p ≠ "https://" ++ domain) (hane : a ≠ "https://" ++ domain) :
    (crawl_domain cfg fetch parse domain).product_urls = {p} ∧
    (crawl_domain cfg fetch parse domain).visited = {"https://" ++ domain} ∧
    fetchedUrls (crawl_domain cfg fetch parse domain).events = ["https://" ++ domain] := by
  unfold crawl_domain
  have hb : (∅ : Finset String).card < cfg.max_pages := by simpa using hmp
  have hs : ¬ (cfg.max_depth < 0 ∨ ("https://" ++ domain) ∈ (∅ : Finset String)) := by simp
  rw [crawlLoop_fetch_some cfg domain fetch parse ("https://" ++ domain) 0 [] ∅ ∅ html hb hs hf]
  rw [hl]
  have hpl : process_links domain ("https://" ++ domain) 0
      (insert ("https://" ++ domain) ∅) [p, a] ∅ =
      (insert p ∅, [(a, 1)],
       [Event.linkSeen p (insert ("https://" ++ domain) ∅) ("https://" ++ domain) 0,
        Event.linkSeen a (insert ("https://" ++ domain) ∅) ("https://" ++ domain) 0,
        Event.enqueued a 1]) := by
    simp [process_links, hpp, hpa, hda, hpne, hane]
  rw [hpl]
  simp only [List.nil_append]
  by_cases hb2 : (insert ("https://" ++ domain) (∅ : Finset String)).card < cfg.max_pages
  · rw [crawlLoop_skip cfg domain fetch parse a 1 [] (insert ("https://" ++ domain) ∅)
      (insert p ∅) hb2 (Or.inl (by rw [hd]; exact Nat.zero_lt_one)), crawlLoop_nil]
    refine ⟨by simp, by simp, ?_⟩
    simp [fetchedUrls]
  · rw [crawlLoop_stop cfg domain fetch parse a 1 [] (insert ("https://" ++ domain) ∅)
      (insert p ∅) hb2]
    refine ⟨by simp, by simp, ?_⟩
    simp [fetchedUrls]

/-- Witness for C9 at the concrete `shop.example.com` scenario. -/
theorem claim_C9_witness :
    ((⟨0, 10, 3⟩ : CrawlConfig).max_depth = 0 ∧
     0 < (⟨0, 10, 3⟩ : CrawlConfig).max_pages ∧
     c9Fetch ("https://" ++ "shop.example.com") = some "rootpage" ∧
     c9Parse "rootpage" ("https://" ++ "shop.example.com") =
       ["https://shop.example.com/product/42", "https://shop.example.com/about"] ∧
     is_product_url "https://shop.example.com/product/42" = true ∧
     is_product_url "https://shop.example.com/about" = false ∧
     hasSubstr "https://shop.example.com/about" "shop.example.com" = true) ∧
    (crawl_domain ⟨0, 10, 3⟩ c9Fetch c9Parse "shop.example.com").product_urls =
      {"https://shop.example.com/product/42"} ∧
    (crawl_domain ⟨0, 10, 3⟩ c9Fetch c9Parse "shop.example.com").visited =
      {"https://shop.example.com"} ∧
    fetchedUrls (crawl_domain ⟨0, 10, 3⟩ c9Fetch c9Parse "shop.example.com").events =
      ["https://shop.example.com"] := by
  refine ⟨⟨rfl, by decide, by decide, by decide, by decide, by decide, by decide⟩, ?_⟩
  exact claim_C9_depth_zero_scenario ⟨0, 10, 3⟩ c9Fetch c9Parse "shop.example.com" "rootpage"
    "https://shop.example.com/product/42" "https://shop.example.com/about"
    rfl (by decide) (by decide) (by decide) (by decide) (by decide) (by decide) (by decide)
    (by decide)

/-- C10: in the semaphore model of `crawl_domains`, every reachable
scheduler state has at most `max_concurrent_requests` domain tasks inside
the `async with semaphore` block, and when the limit is saturated the only
possible steps are completions of running tasks — no waiting domain task
can start until a running one finishes. -/
theorem claim_C10_bounded_concurrency (cfg : CrawlConfig) (numDomains : Nat) (s : OrchState)
    (h : OrchReachable cfg numDomains s) :
    s.running ≤ cfg.max_concurrent_requests ∧
    (s.running = cfg.max_concurrent_requests →
      ∀ t, OrchStep s t → t.running + 1 = s.running ∧ t.finished = s.finished + 1) := by
  have hinv := orch_sem_invariant cfg numDomains s h
  refine ⟨by omega, ?_⟩
  intro hsat t hstep
  cases hstep with
  | acquire hw hsem => exact absurd hsem (by omega)
  | release hr =>
    constructor
    · show s.running - 1 + 1 = s.running
      omega
    · show s.finished + 1 = s.finished + 1
      rfl

/-- Witness for C10 at a concrete reachable state with one running task. -/
theorem claim_C10_witness :
    OrchReachable ⟨2, 50, 5⟩ 3 ⟨4, 2, 1, 0⟩ ∧
    ((⟨4, 2, 1, 0⟩ : OrchState).running ≤ (⟨2, 50, 5⟩ : CrawlConfig).max_concurrent_requests ∧
     ((⟨4, 2, 1, 0⟩ : OrchState).running = (⟨2, 50, 5⟩ : CrawlConfig).max_concurrent_requests →
       ∀ t, OrchStep ⟨4, 2, 1, 0⟩ t →
         t.running + 1 = (⟨4, 2, 1, 0⟩ : OrchState).running ∧
         t.finished = (⟨4, 2, 1, 0⟩ : OrchState).finished + 1)) := by
  have hreach : OrchReachable ⟨2, 50, 5⟩ 3 ⟨4, 2, 1, 0⟩ :=
    OrchReachable.step OrchReachable.init
      (OrchStep.acquire (initOrch ⟨2, 50, 5⟩ 3) (by decide) (by decide))
  exact ⟨hreach, claim_C10_bounded_concurrency ⟨2, 50, 5⟩ 3 ⟨4, 2, 1, 0⟩ hreach⟩
